import Mathlib

/-!
Verification of the RIS bibliographic interchange engine of the `refrs`
repository (`src/model/ris.rs`, `src/services/serialization.rs`).

Rust strings are modelled as `List Char`; `HashMap<String, Vec<String>>` is
modelled as an insertion-ordered association list (the map's iteration order
is implementation-defined in the source, so any fixed order is a faithful
choice for the observations made here).  Fallible code returns `Except`.
-/

namespace Refrs

/-- Whitespace predicate of Rust's `char::is_whitespace` (Unicode White_Space). -/
def isWs (c : Char) : Bool :=
  let n := c.toNat
  (9 ≤ n && n ≤ 13) || n == 32 || n == 133 || n == 160 || n == 5760 ||
    (8192 ≤ n && n ≤ 8202) || n == 8232 || n == 8233 || n == 8239 || n == 8287 ||
    n == 12288

/-- Rust `str::trim_start`. -/
def trimStartL (l : List Char) : List Char := l.dropWhile isWs

/-- Rust `str::trim_end`. -/
def trimEndL (l : List Char) : List Char := (l.reverse.dropWhile isWs).reverse

/-- Rust `str::trim`. -/
def trimL (l : List Char) : List Char := trimEndL (trimStartL l)

/-- Does `l` start with the sequence `pre`? -/
def startsWith : List Char → List Char → Bool
  | [], _ => true
  | _ :: _, [] => false
  | p :: ps, c :: cs => p == c && startsWith ps cs

/-- Rust `str::contains` for a sequence pattern. -/
def containsSeq : List Char → List Char → Bool
  | [], pat => startsWith pat []
  | c :: cs, pat => startsWith pat (c :: cs) || containsSeq cs pat

/-- Rust `str::contains` for a single-character pattern. -/
def containsChar (l : List Char) (c : Char) : Bool := l.any (fun x => x == c)

/-- Rust `str::split_once`: split at the first occurrence of `pat`. -/
def splitOnce (pat : List Char) : List Char → Option (List Char × List Char)
  | [] => if startsWith pat [] then some ([], []) else none
  | c :: cs =>
    if startsWith pat (c :: cs) then some ([], (c :: cs).drop pat.length)
    else
      match splitOnce pat cs with
      | none => none
      | some (a, b) => some (c :: a, b)

/-- Rust `str::split` with a single-character pattern. -/
def splitOnChar (c : Char) : List Char → List (List Char)
  | [] => [[]]
  | x :: xs =>
    match splitOnChar c xs with
    | [] => [[]]
    | r :: rs => if x == c then [] :: r :: rs else (x :: r) :: rs

/-- Rust `str::split` with a (non-empty) sequence pattern `c :: cs`, fuelled so
that the recursion is structural; `splitSeq` supplies enough fuel. -/
def splitSeqAux (c : Char) (cs : List Char) : Nat → List Char → List (List Char)
  | 0, l => [l]
  | fuel + 1, l =>
    match splitOnce (c :: cs) l with
    | none => [l]
    | some (a, b) => a :: splitSeqAux c cs fuel b

/-- Rust `str::split` with pattern `c :: cs` (never empty, so it terminates). -/
def splitSeq (c : Char) (cs : List Char) (l : List Char) : List (List Char) :=
  splitSeqAux c cs l.length l

/-- Decimal rendering of a counter, little helper for Rust's `format!`; fuelled
so that the recursion is structural (`natToChars` supplies enough fuel). -/
def natToCharsAux : Nat → Nat → List Char
  | 0, _ => []
  | _, 0 => []
  | fuel + 1, n + 1 =>
    natToCharsAux fuel ((n + 1) / 10) ++ [Char.ofNat (48 + (n + 1) % 10)]

/-- Decimal rendering of a natural number, as Rust's `format!` renders it. -/
def natToChars (n : Nat) : List Char :=
  if n = 0 then [Char.ofNat 48] else natToCharsAux n n

/-- Rust `Vec::join` with separator `"\n"`. -/
def joinLines : List (List Char) → List Char
  | [] => []
  | [l] => l
  | l :: ls => l ++ '\n' :: joinLines ls

/-- The apostrophe character, kept out of string literals. -/
def apos : Char := Char.ofNat 39

/-- The reference-type enumeration of `src/model/ris.rs`. -/
inductive ReferenceType where
  | Abstract
  | AggregatedDatabase
  | AncientText
  | Art
  | AudiovisualMaterial
  | Bill
  | Book
  | Case
  | Catalog
  | Chart
  | ClassicalWork
  | ComputerProgram
  | ConferencePaper
  | ConferenceProceedings
  | Dataset
  | ElectronicArticle
  | ElectronicBook
  | Encyclopedia
  | Equation
  | Figure
  | Generic
  | GovernmentDocument
  | Grant
  | Hearing
  | Journal
  | LegalRuleOrRegulation
  | MagazineArticle
  | Manuscript
  | Map
  | Music
  | Newspaper
  | OnlineDatabase
  | Patent
  | PersonalCommunication
  | Report
  | Serial
  | Slide
  | SoundRecording
  | Standard
  | Statute
  | Thesis
  | UnpublishedWork
  | VideoRecording
  | Unknown
deriving DecidableEq

/-- Encoding half of the reference-type table (`ReferenceType::to_str`). -/
def ReferenceType.to_str : ReferenceType → List Char
  | .Abstract => "ABST".data
  | .AggregatedDatabase => "AGGR".data
  | .AncientText => "ANCIENT".data
  | .Art => "ART".data
  | .AudiovisualMaterial => "AUD".data
  | .Bill => "BILL".data
  | .Book => "BOOK".data
  | .Case => "CASE".data
  | .Catalog => "CTLG".data
  | .Chart => "CHAP".data
  | .ClassicalWork => "CLSWK".data
  | .ComputerProgram => "COMP".data
  | .ConferencePaper => "CONF".data
  | .ConferenceProceedings => "CPAPER".data
  | .Dataset => "DATA".data
  | .ElectronicArticle => "ELEC".data
  | .ElectronicBook => "EBOOK".data
  | .Encyclopedia => "ENCYC".data
  | .Equation => "EQUA".data
  | .Figure => "FIGURE".data
  | .Generic => "GEN".data
  | .GovernmentDocument => "GOVDOC".data
  | .Grant => "GRANT".data
  | .Hearing => "HEAR".data
  | .Journal => "JOUR".data
  | .LegalRuleOrRegulation => "LEGAL".data
  | .MagazineArticle => "MGZN".data
  | .Manuscript => "MANSCPT".data
  | .Map => "MAP".data
  | .Music => "MUSIC".data
  | .Newspaper => "NEWS".data
  | .OnlineDatabase => "DBASE".data
  | .Patent => "PAT".data
  | .PersonalCommunication => "PCOMM".data
  | .Report => "RPRT".data
  | .Serial => "SER".data
  | .Slide => "SLIDE".data
  | .SoundRecording => "SOUND".data
  | .Standard => "STAND".data
  | .Statute => "STAT".data
  | .Thesis => "THES".data
  | .UnpublishedWork => "UNPB".data
  | .VideoRecording => "VIDEO".data
  | .Unknown => "GEN".data

/-- Decoding half of the reference-type table (`ReferenceType::from_str`),
written as the same case-sensitive exact-match table as the source `match`. -/
def ReferenceType.from_str (s : List Char) : ReferenceType :=
  if s = "ABST".data then .Abstract
  else if s = "ADVS".data ∨ s = "AGGR".data then .AggregatedDatabase
  else if s = "ANCIENT".data then .AncientText
  else if s = "ART".data then .Art
  else if s = "AUD".data then .AudiovisualMaterial
  else if s = "BILL".data then .Bill
  else if s = "BOOK".data then .Book
  else if s = "CASE".data then .Case
  else if s = "CTLG".data then .Catalog
  else if s = "CHAP".data then .Chart
  else if s = "CLSWK".data then .ClassicalWork
  else if s = "COMP".data then .ComputerProgram
  else if s = "CONF".data then .ConferencePaper
  else if s = "CPAPER".data then .ConferenceProceedings
  else if s = "DATA".data then .Dataset
  else if s = "ELEC".data then .ElectronicArticle
  else if s = "EBOOK".data then .ElectronicBook
  else if s = "ENCYC".data then .Encyclopedia
  else if s = "EQUA".data then .Equation
  else if s = "FIGURE".data then .Figure
  else if s = "GEN".data then .Generic
  else if s = "GOVDOC".data then .GovernmentDocument
  else if s = "GRANT".data then .Grant
  else if s = "HEAR".data then .Hearing
  else if s = "JOUR".data then .Journal
  else if s = "LEGAL".data then .LegalRuleOrRegulation
  else if s = "MGZN".data then .MagazineArticle
  else if s = "MANSCPT".data then .Manuscript
  else if s = "MAP".data then .Map
  else if s = "MUSIC".data then .Music
  else if s = "NEWS".data then .Newspaper
  else if s = "DBASE".data then .OnlineDatabase
  else if s = "PAT".data then .Patent
  else if s = "PCOMM".data then .PersonalCommunication
  else if s = "RPRT".data then .Report
  else if s = "SER".data then .Serial
  else if s = "SLIDE".data then .Slide
  else if s = "SOUND".data then .SoundRecording
  else if s = "STAND".data then .Standard
  else if s = "STAT".data then .Statute
  else if s = "THES".data then .Thesis
  else if s = "UNPB".data then .UnpublishedWork
  else if s = "VIDEO".data then .VideoRecording
  else .Unknown

/-- All short codes matched by `ReferenceType.from_str` (aliases included). -/
def risCodes : List (List Char) :=
  ["ABST".data, "ADVS".data, "AGGR".data, "ANCIENT".data, "ART".data,
   "AUD".data, "BILL".data, "BOOK".data, "CASE".data, "CTLG".data,
   "CHAP".data, "CLSWK".data, "COMP".data, "CONF".data, "CPAPER".data,
   "DATA".data, "ELEC".data, "EBOOK".data, "ENCYC".data, "EQUA".data,
   "FIGURE".data, "GEN".data, "GOVDOC".data, "GRANT".data, "HEAR".data,
   "JOUR".data, "LEGAL".data, "MGZN".data, "MANSCPT".data, "MAP".data,
   "MUSIC".data, "NEWS".data, "DBASE".data, "PAT".data, "PCOMM".data,
   "RPRT".data, "SER".data, "SLIDE".data, "SOUND".data, "STAND".data,
   "STAT".data, "THES".data, "UNPB".data, "VIDEO".data]

theorem from_str_of_not_mem_risCodes (s : List Char) (hs : s ∉ risCodes) :
    ReferenceType.from_str s = ReferenceType.Unknown := by
  simp only [risCodes, List.mem_cons, List.not_mem_nil, or_false, not_or] at hs
  obtain ⟨h1, h2, h3, h4, h5, h6, h7, h8, h9, h10, h11, h12, h13, h14, h15,
    h16, h17, h18, h19, h20, h21, h22, h23, h24, h25, h26, h27, h28, h29, h30,
    h31, h32, h33, h34, h35, h36, h37, h38, h39, h40, h41, h42, h43, h44⟩ := hs
  simp [ReferenceType.from_str, h1, h2, h3, h4, h5, h6, h7, h8, h9, h10, h11,
    h12, h13, h14, h15, h16, h17, h18, h19, h20, h21, h22, h23, h24, h25, h26,
    h27, h28, h29, h30, h31, h32, h33, h34, h35, h36, h37, h38, h39, h40, h41,
    h42, h43, h44]

theorem from_str_to_str (t : ReferenceType) (ht : t ≠ ReferenceType.Unknown) :
    ReferenceType.from_str t.to_str = t := by
  cases t <;> first | decide | exact absurd rfl ht

/-- Field maps: `HashMap<String, Vec<String>>` as an insertion-ordered
association list. -/
abbrev FieldMap : Type := List (List Char × List (List Char))

/-- The record type of `src/model/ris.rs` (`RisEntry`). -/
structure RisEntry where
  ty : ReferenceType
  fields : FieldMap
deriving DecidableEq

/-- Rust `fields.entry(tag).or_insert_with(Vec::new).push(value)`. -/
def addField : FieldMap → List Char → List Char → FieldMap
  | [], tag, value => [(tag, [value])]
  | (t, vs) :: rest, tag, value =>
    if t = tag then (t, vs ++ [value]) :: rest
    else (t, vs) :: addField rest tag value

/-- Rust `fields.get(key)` on the association-list model. -/
def getValues : FieldMap → List Char → Option (List (List Char))
  | [], _ => none
  | (t, vs) :: rest, key => if t = key then some vs else getValues rest key

/-- The literal three-character separator of the RIS line format. -/
def risSep : List Char := [' ', ' ', '-']

/-- Tag plus separator plus one space, as `format!` lays a line out. -/
def mkLine (tag value : List Char) : List Char := tag ++ risSep ++ ' ' :: value

def tyTag : List Char := ['T', 'Y']

def erTag : List Char := ['E', 'R']

/-- RIS serializer `RisEntry::to_string`: the `TY` line, one line per value of
every field, and a terminal `ER  -` line, joined with newlines. -/
def RisEntry.to_string (e : RisEntry) : List Char :=
  joinLines
    (mkLine tyTag e.ty.to_str ::
      (e.fields.flatMap (fun p => p.2.map (fun v => mkLine p.1 v)) ++
        [erTag ++ risSep]))

/-- Error message for a line lacking the separator (`line` is the line after
trailing-whitespace trimming, `n` the 0-based index of the source loop). -/
def invalidLineMsg (n : Nat) (line : List Char) : List Char :=
  "Format error: Invalid line format at line ".data ++ natToChars (n + 1) ++
    ": ".data ++ apos :: line ++ [apos]

/-- Error message for an `ER` tag with no preceding `TY` tag. -/
def erWithoutTyMsg (n : Nat) : List Char :=
  "Format error: ".data ++ apos :: "ER".data ++ apos :: " tag found without a preceding ".data ++
    apos :: "TY".data ++ apos :: " tag at line ".data ++ natToChars (n + 1)

/-- Error message for a non-empty accumulator at end of input. -/
def lastEntryMsg : List Char :=
  "Format error: Last entry does not have a ".data ++ apos :: "TY".data ++
    apos :: " tag.".data

instance {ε α : Type} [DecidableEq ε] [DecidableEq α] : DecidableEq (Except ε α) :=
  fun x y =>
    match x, y with
    | .ok a, .ok b => decidable_of_iff (a = b) (by simp)
    | .error a, .error b => decidable_of_iff (a = b) (by simp)
    | .ok _, .error _ => isFalse (by simp)
    | .error _, .ok _ => isFalse (by simp)

/-- Mutable state of the `parse_ris` loop. -/
structure ParseState where
  entries : List RisEntry
  fields : FieldMap
  ty : ReferenceType
  hasTy : Bool
deriving DecidableEq

def initState : ParseState :=
  { entries := [], fields := [], ty := ReferenceType.Unknown, hasTy := false }

/-- One iteration of the `parse_ris` loop on the line with 0-based index `n`. -/
def processLine (n : Nat) (st : ParseState) (raw : List Char) :
    Except (List Char) ParseState :=
  let line := trimEndL raw
  if line = [] then .ok st
  else
    match splitOnce risSep line with
    | some (tagRaw, valueRaw) =>
      let tag := trimL tagRaw
      let value := trimL valueRaw
      if tag = tyTag then
        let st' :=
          if st.fields ≠ [] then
            { st with entries := st.entries ++ [⟨st.ty, st.fields⟩], fields := [] }
          else st
        .ok { st' with ty := ReferenceType.from_str value, hasTy := true }
      else if tag = erTag then
        if st.hasTy = false then .error (erWithoutTyMsg n)
        else
          .ok { entries := st.entries ++ [⟨st.ty, st.fields⟩], fields := [],
                ty := ReferenceType.Unknown, hasTy := false }
      else .ok { st with fields := addField st.fields tag value }
    | none => .error (invalidLineMsg n line)

/-- The `parse_ris` loop over the remaining lines, `n` the 0-based index of the
first of them. -/
def parseLinesFrom (st : ParseState) (n : Nat) :
    List (List Char) → Except (List Char) ParseState
  | [] => .ok st
  | l :: ls =>
    match processLine n st l with
    | .error e => .error e
    | .ok st' => parseLinesFrom st' (n + 1) ls

theorem splitOnce_eq_none_iff (pat l : List Char) :
    splitOnce pat l = none ↔ containsSeq l pat = false := by
  induction l with
  | nil =>
    simp only [splitOnce, containsSeq]
    by_cases h : startsWith pat [] = true <;> simp [h]
  | cons c cs ih =>
    simp only [splitOnce, containsSeq]
    by_cases h : startsWith pat (c :: cs) = true
    · simp [h]
    · simp only [Bool.not_eq_true] at h
      simp only [h, if_neg, Bool.false_eq_true, not_false_eq_true, Bool.false_or]
      cases hsp : splitOnce pat cs with
      | none => simpa [hsp] using ih
      | some p => simpa [hsp] using ih

theorem splitOnce_sep_append (t rest : List Char)
    (h : containsSeq t risSep = false) :
    splitOnce risSep (t ++ risSep ++ rest) = some (t, rest) := by
  induction t with
  | nil =>
    show splitOnce risSep (' ' :: ' ' :: '-' :: rest) = some ([], rest)
    simp [splitOnce, startsWith, risSep]
  | cons c t ih =>
    simp only [containsSeq, Bool.or_eq_false_iff] at h
    have hns : startsWith risSep (c :: (t ++ risSep ++ rest)) = false := by
      cases t with
      | nil =>
        show (' ' == c && (' ' == ' ' && ('-' == ' ' && startsWith [] ('-' :: rest)))) = false
        simp
      | cons d t' =>
        cases t' with
        | nil =>
          show (' ' == c && (' ' == d && ('-' == ' ' && startsWith [] (' ' :: '-' :: rest)))) = false
          simp
        | cons e t'' =>
          show (' ' == c && (' ' == d && ('-' == e && startsWith [] (t'' ++ risSep ++ rest)))) = false
          by_cases hc : c = ' '
          · by_cases hd : d = ' '
            · by_cases he : e = '-'
              · exfalso
                have hsw : startsWith risSep (c :: d :: e :: t'') = true := by
                  simp [startsWith, risSep, hc, hd, he]
                rw [h.1] at hsw
                exact Bool.false_ne_true hsw
              · simp [Ne.symm he]
            · simp [Ne.symm hd]
          · simp [Ne.symm hc]
    show splitOnce risSep (c :: (t ++ risSep ++ rest)) = some (c :: t, rest)
    simp only [splitOnce, hns, Bool.false_eq_true, if_neg, not_false_eq_true]
    rw [ih h.2]

theorem splitOnChar_of_not_mem {l : List Char} (c : Char) (h : c ∉ l) :
    splitOnChar c l = [l] := by
  induction l with
  | nil => rfl
  | cons x xs ih =>
    simp only [List.mem_cons, not_or] at h
    simp only [splitOnChar, ih h.2]
    simp [Ne.symm h.1]

theorem splitOnChar_append {l : List Char} (c : Char) (rest : List Char)
    (h : c ∉ l) :
    splitOnChar c (l ++ c :: rest) = l :: splitOnChar c rest := by
  induction l with
  | nil =>
    simp only [List.nil_append, splitOnChar]
    cases hs : splitOnChar c rest with
    | nil =>
      exfalso
      have : splitOnChar c rest ≠ [] := by
        induction rest with
        | nil => simp [splitOnChar]
        | cons y ys ihy =>
          simp only [splitOnChar]
          cases splitOnChar c ys with
          | nil => simp
          | cons r rs => by_cases hy : y == c <;> simp [hy]
      exact this hs
    | cons r rs => simp
  | cons x xs ih =>
    simp only [List.mem_cons, not_or] at h
    show (match splitOnChar c (xs ++ c :: rest) with
      | [] => [[]]
      | r :: rs => if x == c then [] :: r :: rs else (x :: r) :: rs) =
        (x :: xs) :: splitOnChar c rest
    rw [ih h.2]
    simp [Ne.symm h.1]

theorem splitOnChar_joinLines {ls : List (List Char)} (hne : ls ≠ [])
    (h : ∀ l ∈ ls, ('\n' : Char) ∉ l) :
    splitOnChar '\n' (joinLines ls) = ls := by
  induction ls with
  | nil => exact absurd rfl hne
  | cons l ls ih =>
    cases ls with
    | nil =>
      simp only [joinLines]
      exact splitOnChar_of_not_mem '\n' (h l (by simp))
    | cons l' ls' =>
      show splitOnChar '\n' (l ++ '\n' :: joinLines (l' :: ls')) = l :: l' :: ls'
      rw [splitOnChar_append '\n' (joinLines (l' :: ls')) (h l (by simp))]
      rw [ih (by simp) (fun x hx => h x (List.mem_cons_of_mem l hx))]

theorem trimEndL_append {xs ys : List Char} (h : trimEndL ys ≠ []) :
    trimEndL (xs ++ ys) = xs ++ trimEndL ys := by
  unfold trimEndL at *
  rw [List.reverse_append, List.dropWhile_append]
  have hne : (ys.reverse.dropWhile isWs).isEmpty = false := by
    cases he : ys.reverse.dropWhile isWs with
    | nil => exact absurd (by simp [he]) h
    | cons a l => simp
  rw [hne]
  simp

theorem trimEndL_append_ws {xs : List Char} {c : Char} (hc : isWs c = true) :
    trimEndL (xs ++ [c]) = trimEndL xs := by
  unfold trimEndL
  simp [List.dropWhile, hc]

theorem trimEndL_risSep_tail (t : List Char) :
    trimEndL (t ++ risSep) = t ++ risSep := by
  have : trimEndL risSep = risSep := by decide
  rw [trimEndL_append (by rw [this]; simp [risSep]), this]

theorem trimStartL_cons_ws {v : List Char} {c : Char} (hc : isWs c = true) :
    trimStartL (c :: v) = trimStartL v := by
  simp [trimStartL, List.dropWhile, hc]

/-- RIS parser `parse_ris`.  Rust's `str::lines` is modelled as splitting on
the newline character: the two only disagree on a final empty segment after a
trailing newline, which the loop skips as blank, and on a `"\r"` at the end of
a line, which the loop's `trim_end` removes either way. -/
def parse_ris (content : List Char) : Except (List Char) (List RisEntry) :=
  match parseLinesFrom initState 0 (splitOnChar '\n' content) with
  | .error e => .error e
  | .ok st => if st.fields ≠ [] then .error lastEntryMsg else .ok st.entries

/-- A tag round-trips through a serialized line when it carries no surrounding
whitespace or newline, does not contain the separator, and is not one of the
two control tags. -/
def wfTag (t : List Char) : Prop :=
  trimStartL t = t ∧ trimEndL t = t ∧ containsSeq t risSep = false ∧
    ('\n' : Char) ∉ t ∧ t ≠ tyTag ∧ t ≠ erTag

/-- A value round-trips when it carries no surrounding whitespace or newline. -/
def wfValue (v : List Char) : Prop :=
  trimStartL v = v ∧ trimEndL v = v ∧ ('\n' : Char) ∉ v

/-- A type code round-trips when it carries no surrounding whitespace or
newline. -/
def wfCode (c : List Char) : Prop :=
  trimStartL c = c ∧ trimEndL c = c ∧ ('\n' : Char) ∉ c

instance (t : List Char) : Decidable (wfTag t) := by
  unfold wfTag
  infer_instance

instance (v : List Char) : Decidable (wfValue v) := by
  unfold wfValue
  infer_instance

instance (c : List Char) : Decidable (wfCode c) := by
  unfold wfCode
  infer_instance

theorem trimL_eq_self {t : List Char} (h1 : trimStartL t = t)
    (h2 : trimEndL t = t) : trimL t = t := by
  unfold trimL
  rw [h1, h2]

theorem trimL_space_cons {v : List Char} (h1 : trimStartL v = v)
    (h2 : trimEndL v = v) : trimL (' ' :: v) = v := by
  unfold trimL
  rw [trimStartL_cons_ws (by decide), h1, h2]

theorem trimEndL_mkLine {t v : List Char} (hv2 : trimEndL v = v) :
    trimEndL (mkLine t v) = if v = [] then t ++ risSep else mkLine t v := by
  by_cases hveq : v = []
  · subst hveq
    show trimEndL ((t ++ risSep) ++ [' ']) = _
    rw [trimEndL_append_ws (by decide), trimEndL_risSep_tail, if_pos rfl]
  · rw [if_neg hveq]
    have hre : mkLine t v = (t ++ risSep ++ [' ']) ++ v := by simp [mkLine]
    rw [hre, trimEndL_append (by rw [hv2]; exact hveq), hv2]

theorem processLine_mkLine (n : Nat) (st : ParseState) {t v : List Char}
    (ht : wfTag t) (hv : wfValue v) :
    processLine n st (mkLine t v) =
      .ok { st with fields := addField st.fields t v } := by
  obtain ⟨ht1, ht2, ht3, _, ht5, ht6⟩ := ht
  obtain ⟨hv1, hv2, _⟩ := hv
  unfold processLine
  rw [trimEndL_mkLine hv2]
  by_cases hveq : v = []
  · subst hveq
    rw [if_pos rfl]
    have hsp : splitOnce risSep (t ++ risSep) = some (t, []) := by
      have := splitOnce_sep_append t [] ht3
      rwa [List.append_nil] at this
    rw [if_neg (by simp [risSep]), hsp]
    simp only
    rw [trimL_eq_self ht1 ht2]
    rw [if_neg ht5, if_neg ht6]
    rfl
  · rw [if_neg hveq]
    have hsp : splitOnce risSep (mkLine t v) = some (t, ' ' :: v) :=
      splitOnce_sep_append t (' ' :: v) ht3
    rw [if_neg (by simp [mkLine, risSep]), hsp]
    simp only
    rw [trimL_eq_self ht1 ht2]
    rw [if_neg ht5, if_neg ht6]
    rw [trimL_space_cons hv1 hv2]

theorem processLine_tyLine (n : Nat) (st : ParseState) {code : List Char}
    (hc : wfCode code) (hf : st.fields = []) :
    processLine n st (mkLine tyTag code) =
      .ok { st with ty := ReferenceType.from_str code, hasTy := true } := by
  obtain ⟨hc1, hc2, _⟩ := hc
  unfold processLine
  rw [trimEndL_mkLine hc2]
  by_cases hceq : code = []
  · subst hceq
    rw [if_pos rfl]
    have hsp : splitOnce risSep (tyTag ++ risSep) = some (tyTag, []) := by
      have := splitOnce_sep_append tyTag [] (by decide)
      rwa [List.append_nil] at this
    rw [if_neg (by simp [risSep]), hsp]
    simp only
    rw [show trimL tyTag = tyTag by decide]
    rw [if_pos rfl]
    simp only [hf, ne_eq, not_true_eq_false, if_neg, ite_self, if_false]
    rfl
  · rw [if_neg hceq]
    have hsp : splitOnce risSep (mkLine tyTag code) = some (tyTag, ' ' :: code) :=
      splitOnce_sep_append tyTag (' ' :: code) (by decide)
    rw [if_neg (by simp [mkLine, risSep]), hsp]
    simp only
    rw [show trimL tyTag = tyTag by decide]
    rw [if_pos rfl]
    rw [trimL_space_cons hc1 hc2]
    simp [hf]

theorem processLine_erLine (n : Nat) (st : ParseState) (hty : st.hasTy = true) :
    processLine n st (erTag ++ risSep) =
      .ok { entries := st.entries ++ [⟨st.ty, st.fields⟩], fields := [],
            ty := ReferenceType.Unknown, hasTy := false } := by
  unfold processLine
  rw [trimEndL_risSep_tail]
  have hsp : splitOnce risSep (erTag ++ risSep) = some (erTag, []) := by
    have := splitOnce_sep_append erTag [] (by decide)
    rwa [List.append_nil] at this
  rw [if_neg (by simp [risSep]), hsp]
  simp only
  rw [show trimL erTag = erTag by decide]
  rw [if_neg (by decide), if_pos rfl]
  rw [if_neg (by simp [hty])]

theorem parseLinesFrom_append (st : ParseState) (n : Nat)
    (xs ys : List (List Char)) :
    parseLinesFrom st n (xs ++ ys) =
      match parseLinesFrom st n xs with
      | .error e => .error e
      | .ok st' => parseLinesFrom st' (n + xs.length) ys := by
  induction xs generalizing st n with
  | nil => simp [parseLinesFrom]
  | cons l ls ih =>
    show parseLinesFrom st n (l :: (ls ++ ys)) = _
    simp only [parseLinesFrom]
    cases processLine n st l with
    | error e => rfl
    | ok st' =>
      dsimp only
      rw [ih st' (n + 1)]
      cases parseLinesFrom st' (n + 1) ls with
      | error e => rfl
      | ok st'' =>
        dsimp only
        rw [List.length_cons, show n + 1 + ls.length = n + (ls.length + 1) by omega]

theorem getValues_addField_ne (m : FieldMap) {t t' : List Char} (v : List Char)
    (h : t' ≠ t) : getValues (addField m t v) t' = getValues m t' := by
  induction m with
  | nil => simp [addField, getValues, Ne.symm h]
  | cons p rest ih =>
    obtain ⟨u, us⟩ := p
    simp only [addField]
    by_cases hu : u = t
    · subst hu
      simp [getValues, Ne.symm h]
    · simp only [if_neg hu, getValues, ih]

theorem addField_of_getValues_none {m : FieldMap} {t : List Char}
    (v : List Char) (h : getValues m t = none) :
    addField m t v = m ++ [(t, [v])] := by
  induction m with
  | nil => rfl
  | cons p rest ih =>
    obtain ⟨u, us⟩ := p
    simp only [getValues] at h
    by_cases hu : u = t
    · simp [hu] at h
    · simp only [if_neg hu] at h
      simp [addField, hu, ih h]

theorem addField_mid {acc rest : FieldMap} {t : List Char} (us : List (List Char))
    (v : List Char) (h : getValues acc t = none) :
    addField (acc ++ (t, us) :: rest) t v = acc ++ (t, us ++ [v]) :: rest := by
  induction acc with
  | nil => simp [addField]
  | cons p acc' ih =>
    obtain ⟨u, ws⟩ := p
    simp only [getValues] at h
    by_cases hu : u = t
    · simp [hu] at h
    · simp only [if_neg hu] at h
      simp [addField, hu, ih h]

theorem getValues_append_none {a : FieldMap} (b : FieldMap) {k : List Char}
    (h : getValues a k = none) : getValues (a ++ b) k = getValues b k := by
  induction a with
  | nil => rfl
  | cons p rest ih =>
    obtain ⟨u, us⟩ := p
    simp only [getValues] at h ⊢
    by_cases hu : u = k
    · simp [hu] at h
    · simp only [if_neg hu] at h ⊢
      exact ih h

/-- Folding the parser's field-accretion over the serialized value lines of one
tag appends exactly that tag's entry. -/
theorem foldl_addField_values {t : List Char} (vs us : List (List Char))
    (acc : FieldMap) (h : getValues acc t = none) :
    List.foldl (fun f p => addField f p.1 p.2) (acc ++ [(t, us)])
        (vs.map (fun v => (t, v))) = acc ++ [(t, us ++ vs)] := by
  induction vs generalizing us with
  | nil => simp
  | cons v vs ih =>
    simp only [List.map_cons, List.foldl_cons]
    have hmid : addField (acc ++ (t, us) :: []) t v = acc ++ (t, us ++ [v]) :: [] :=
      addField_mid us v h
    simp only at hmid
    rw [hmid, ih (us ++ [v])]
    simp

/-- Flattening of a field map into its (tag, value) line payloads, in the
order `RisEntry.to_string` emits them. -/
def flattenFields (m : FieldMap) : List (List Char × List Char) :=
  m.flatMap (fun p => p.2.map (fun v => (p.1, v)))

/-- Folding the parser's field-accretion over a flattened well-formed field
map rebuilds that map. -/
theorem foldl_addField_flatten (m : FieldMap) (acc : FieldMap)
    (hnd : (m.map Prod.fst).Nodup)
    (hne : ∀ p ∈ m, p.2 ≠ [])
    (hacc : ∀ p ∈ m, getValues acc p.1 = none) :
    List.foldl (fun f p => addField f p.1 p.2) acc (flattenFields m) =
      acc ++ m := by
  induction m generalizing acc with
  | nil => simp [flattenFields]
  | cons p rest ih =>
    obtain ⟨t, vs⟩ := p
    have hvs : vs ≠ [] := hne (t, vs) (by simp)
    obtain ⟨v, vs', rfl⟩ := List.exists_cons_of_ne_nil hvs
    have hn : getValues acc t = none := hacc (t, v :: vs') (by simp)
    have hnd2 : (t :: rest.map Prod.fst).Nodup := by simpa using hnd
    have htni : t ∉ rest.map Prod.fst := (List.nodup_cons.mp hnd2).1
    have hacc' : ∀ q ∈ rest, getValues (acc ++ [(t, v :: vs')]) q.1 = none := by
      intro q hq
      rw [getValues_append_none _ (hacc q (List.mem_cons_of_mem _ hq))]
      simp only [getValues]
      rw [if_neg]
      intro he
      exact htni (he ▸ List.mem_map.mpr ⟨q, hq, rfl⟩)
    have hrec := ih (acc ++ [(t, v :: vs')]) (List.nodup_cons.mp hnd2).2
      (fun q hq => hne q (List.mem_cons_of_mem _ hq)) hacc'
    simp only [flattenFields, List.flatMap_cons] at hrec ⊢
    rw [List.foldl_append]
    simp only [List.map_cons, List.foldl_cons]
    rw [addField_of_getValues_none v hn]
    rw [foldl_addField_values vs' [v] acc hn]
    simp only [List.singleton_append]
    rw [hrec]
    simp

/-- A well-formed `TY … ER` block of RIS text: the `TY` line's code and the
data lines between it and the closing `ER` line. -/
structure Block where
  code : List Char
  body : List (List Char × List Char)

def wfBlock (b : Block) : Prop :=
  wfCode b.code ∧ ∀ p ∈ b.body, wfTag p.1 ∧ wfValue p.2

def dataLine (p : List Char × List Char) : List Char := mkLine p.1 p.2

/-- The lines of one block, `TY` line first, `ER  -` line last. -/
def renderBlock (b : Block) : List (List Char) :=
  mkLine tyTag b.code :: (b.body.map dataLine ++ [erTag ++ risSep])

/-- The field map the parser accumulates over one block's data lines. -/
def blockFields (b : Block) : FieldMap :=
  b.body.foldl (fun f p => addField f p.1 p.2) []

/-- The record one block parses to. -/
def blockEntry (b : Block) : RisEntry :=
  ⟨ReferenceType.from_str b.code, blockFields b⟩

theorem parseLinesFrom_dataLines (body : List (List Char × List Char))
    (rest : List (List Char)) (st : ParseState) (n : Nat)
    (hwf : ∀ p ∈ body, wfTag p.1 ∧ wfValue p.2) :
    parseLinesFrom st n (body.map dataLine ++ rest) =
      parseLinesFrom
        { st with fields := body.foldl (fun f p => addField f p.1 p.2) st.fields }
        (n + body.length) rest := by
  induction body generalizing st n with
  | nil => simp
  | cons p body ih =>
    obtain ⟨t, v⟩ := p
    simp only [List.map_cons, List.cons_append, parseLinesFrom, dataLine]
    rw [processLine_mkLine n st (hwf (t, v) (by simp)).1 (hwf (t, v) (by simp)).2]
    dsimp only
    simp only [List.append_eq]
    rw [ih _ _ (fun q hq => hwf q (List.mem_cons_of_mem _ hq))]
    simp only [List.foldl_cons, List.length_cons]
    rw [show n + 1 + body.length = n + (body.length + 1) by omega]

theorem parseLinesFrom_block (b : Block) (rest : List (List Char))
    (acc : List RisEntry) (ty0 : ReferenceType) (h0 : Bool) (n : Nat)
    (hwf : wfBlock b) :
    parseLinesFrom ⟨acc, [], ty0, h0⟩ n (renderBlock b ++ rest) =
      parseLinesFrom ⟨acc ++ [blockEntry b], [], ReferenceType.Unknown, false⟩
        (n + b.body.length + 2) rest := by
  simp only [renderBlock, List.cons_append, parseLinesFrom]
  rw [processLine_tyLine n _ hwf.1 rfl]
  dsimp only
  simp only [List.append_eq]
  rw [List.append_assoc]
  rw [parseLinesFrom_dataLines b.body _ _ _ hwf.2]
  simp only [List.singleton_append, parseLinesFrom]
  rw [processLine_erLine _ _ rfl]
  dsimp only
  rw [show n + 1 + b.body.length + 1 = n + b.body.length + 2 by omega]
  rfl

theorem parseLinesFrom_blocks (bs : List Block) (rest : List (List Char))
    (acc : List RisEntry) (n : Nat) (hwf : ∀ b ∈ bs, wfBlock b) :
    parseLinesFrom ⟨acc, [], ReferenceType.Unknown, false⟩ n
        (bs.flatMap renderBlock ++ rest) =
      parseLinesFrom ⟨acc ++ bs.map blockEntry, [], ReferenceType.Unknown, false⟩
        (n + (bs.flatMap renderBlock).length) rest := by
  induction bs generalizing acc n with
  | nil => simp
  | cons b bs ih =>
    simp only [List.flatMap_cons, List.append_assoc]
    rw [parseLinesFrom_block b _ _ _ _ _ (hwf b (by simp))]
    rw [ih _ _ (fun x hx => hwf x (List.mem_cons_of_mem _ hx))]
    have h1 : acc ++ [blockEntry b] ++ bs.map blockEntry =
        acc ++ (blockEntry b :: bs.map blockEntry) := by simp
    have hlen : (renderBlock b).length = b.body.length + 2 := by
      simp [renderBlock]
    have h2 : n + b.body.length + 2 + (bs.flatMap renderBlock).length =
        n + ((renderBlock b).length + (bs.flatMap renderBlock).length) := by
      rw [hlen]
      omega
    rw [h1, h2]
    simp

theorem mkLine_newline_free {t v : List Char} (ht : ('\n' : Char) ∉ t)
    (hv : ('\n' : Char) ∉ v) : ('\n' : Char) ∉ mkLine t v := by
  intro h
  rcases List.mem_append.mp h with h1 | h2
  · rcases List.mem_append.mp h1 with h3 | h4
    · exact ht h3
    · exact absurd h4 (by decide)
  · rcases List.mem_cons.mp h2 with h5 | h6
    · exact absurd h5 (by decide)
    · exact hv h6

theorem renderBlock_newline_free {b : Block} (hwf : wfBlock b) :
    ∀ l ∈ renderBlock b, ('\n' : Char) ∉ l := by
  intro l hl
  rcases List.mem_cons.mp hl with rfl | hl'
  · exact mkLine_newline_free (by decide) hwf.1.2.2
  · rcases List.mem_append.mp hl' with hm | hs
    · obtain ⟨p, hp, rfl⟩ := List.mem_map.mp hm
      exact mkLine_newline_free (hwf.2 p hp).1.2.2.2.1 (hwf.2 p hp).2.2.2
    · rw [List.mem_singleton.mp hs]
      decide

/-- Parsing the rendering of any list of well-formed blocks yields exactly the
blocks' records, in block order. -/
theorem parse_ris_renderBlocks (bs : List Block) (hwf : ∀ b ∈ bs, wfBlock b) :
    parse_ris (joinLines (bs.flatMap renderBlock)) = .ok (bs.map blockEntry) := by
  cases bs with
  | nil => rfl
  | cons b bs' =>
    unfold parse_ris
    have hne : (b :: bs').flatMap renderBlock ≠ [] := by
      simp [List.flatMap_cons, renderBlock]
    have hnl : ∀ l ∈ (b :: bs').flatMap renderBlock, ('\n' : Char) ∉ l := by
      intro l hl
      obtain ⟨x, hx, hlx⟩ := List.mem_flatMap.mp hl
      exact renderBlock_newline_free (hwf x hx) l hlx
    rw [splitOnChar_joinLines hne hnl]
    have hblocks := parseLinesFrom_blocks (b :: bs') [] [] 0
      (fun x hx => hwf x hx)
    rw [List.append_nil] at hblocks
    rw [show initState = (⟨[], [], ReferenceType.Unknown, false⟩ : ParseState) from rfl]
    rw [hblocks]
    simp [parseLinesFrom]

/-- Well-formedness of a record's field map: distinct tags, every tag and
value free of the artifacts the line format cannot carry, every tag holding
at least one value (the data-model invariant of the spec). -/
def wfFieldMap (m : FieldMap) : Prop :=
  (m.map Prod.fst).Nodup ∧
    ∀ p ∈ m, wfTag p.1 ∧ p.2 ≠ [] ∧ ∀ v ∈ p.2, wfValue v

instance (m : FieldMap) : Decidable (wfFieldMap m) := by
  unfold wfFieldMap
  infer_instance

theorem wfCode_to_str (t : ReferenceType) : wfCode t.to_str := by
  cases t <;> exact (by decide)

theorem flattenFields_map_dataLine (m : FieldMap) :
    (flattenFields m).map dataLine =
      m.flatMap (fun p => p.2.map (fun v => mkLine p.1 v)) := by
  simp only [flattenFields, List.map_flatMap, List.map_map]
  rfl

theorem to_string_eq_join_renderBlock (e : RisEntry) :
    RisEntry.to_string e =
      joinLines (renderBlock ⟨e.ty.to_str, flattenFields e.fields⟩) := by
  unfold RisEntry.to_string renderBlock
  rw [flattenFields_map_dataLine]

theorem wfBlock_of_wfFieldMap {e : RisEntry} (h : wfFieldMap e.fields) :
    wfBlock ⟨e.ty.to_str, flattenFields e.fields⟩ := by
  refine ⟨wfCode_to_str e.ty, ?_⟩
  intro p hp
  have hp' : p ∈ e.fields.flatMap (fun q => q.2.map (fun v => (q.1, v))) := hp
  obtain ⟨q, hq, hpq⟩ := List.mem_flatMap.mp hp'
  obtain ⟨v, hv, rfl⟩ := List.mem_map.mp hpq
  exact ⟨(h.2 q hq).1, (h.2 q hq).2.2 v hv⟩

/-- The full round-trip: serializing any well-formed record and parsing the
result yields exactly that record back. -/
theorem parse_ris_to_string (e : RisEntry) (hty : e.ty ≠ ReferenceType.Unknown)
    (hwf : wfFieldMap e.fields) :
    parse_ris (RisEntry.to_string e) = .ok [e] := by
  obtain ⟨ty, fields⟩ := e
  rw [to_string_eq_join_renderBlock]
  have hb : ∀ b ∈ [(⟨ReferenceType.to_str ty, flattenFields fields⟩ : Block)],
      wfBlock b := by
    intro b hb
    rw [List.mem_singleton.mp hb]
    exact wfBlock_of_wfFieldMap hwf
  have := parse_ris_renderBlocks [⟨ReferenceType.to_str ty, flattenFields fields⟩] hb
  simp only [List.flatMap_cons, List.flatMap_nil, List.append_nil,
    List.map_cons, List.map_nil] at this
  rw [this]
  congr 1
  simp only [blockEntry, blockFields]
  have hfold := foldl_addField_flatten fields [] hwf.1
    (fun p hp => (hwf.2 p hp).2.1) (fun p _ => rfl)
  simp only [List.nil_append] at hfold
  rw [hfold]
  rw [from_str_to_str ty hty]

theorem addField_ne_nil (m : FieldMap) (t v : List Char) :
    addField m t v ≠ [] := by
  cases m with
  | nil => simp [addField]
  | cons p rest =>
    obtain ⟨u, us⟩ := p
    simp only [addField]
    by_cases hu : u = t <;> simp [hu]

theorem foldl_addField_ne_nil (ps : List (List Char × List Char)) (m : FieldMap)
    (h : m ≠ [] ∨ ps ≠ []) :
    List.foldl (fun f p => addField f p.1 p.2) m ps ≠ [] := by
  induction ps generalizing m with
  | nil =>
    rcases h with h | h
    · exact h
    · exact absurd rfl h
  | cons p ps ih =>
    simp only [List.foldl_cons]
    exact ih (addField m p.1 p.2) (Or.inl (addField_ne_nil m p.1 p.2))

/-- A structurally bad line (non-blank after trailing trim, lacking the
separator) makes `processLine` fail with the invalid-line message. -/
theorem processLine_bad (n : Nat) (st : ParseState) {l : List Char}
    (h1 : trimEndL l ≠ []) (h2 : containsSeq (trimEndL l) risSep = false) :
    processLine n st l = .error (invalidLineMsg n (trimEndL l)) := by
  unfold processLine
  rw [if_neg h1, (splitOnce_eq_none_iff risSep (trimEndL l)).mpr h2]

theorem parseLinesFrom_bad (ls : List (List Char)) (st : ParseState) (n : Nat)
    (h : ∃ l ∈ ls, trimEndL l ≠ [] ∧ containsSeq (trimEndL l) risSep = false) :
    ∀ st', parseLinesFrom st n ls ≠ .ok st' := by
  induction ls generalizing st n with
  | nil => simp at h
  | cons l ls ih =>
    intro st'
    obtain ⟨x, hx, hbad⟩ := h
    rcases List.mem_cons.mp hx with rfl | hx'
    · simp only [parseLinesFrom]
      rw [processLine_bad n st hbad.1 hbad.2]
      simp
    · simp only [parseLinesFrom]
      cases processLine n st l with
      | error e => simp
      | ok st'' => exact ih st'' (n + 1) ⟨x, hx', hbad⟩ st'

/-- An error produced at a line that does contain the separator is never the
invalid-line-format error: only the `ER`-without-`TY` message can arise. -/
theorem processLine_sep_error (n : Nat) (st : ParseState) {l : List Char}
    (h : containsSeq (trimEndL l) risSep = true) :
    ∀ e, processLine n st l = .error e → e = erWithoutTyMsg n := by
  intro e he
  unfold processLine at he
  by_cases hline : trimEndL l = []
  · rw [hline] at h
    exact absurd h (by decide)
  · rw [if_neg hline] at he
    cases hsp : splitOnce risSep (trimEndL l) with
    | none =>
      rw [(splitOnce_eq_none_iff risSep (trimEndL l)).mp hsp] at h
      exact absurd h (by decide)
    | some p =>
      obtain ⟨a, b⟩ := p
      rw [hsp] at he
      simp only at he
      by_cases hty : trimL a = tyTag
      · rw [if_pos hty] at he
        exact absurd he (by simp)
      · rw [if_neg hty] at he
        by_cases her : trimL a = erTag
        · rw [if_pos her] at he
          by_cases hhas : st.hasTy = false
          · rw [if_pos hhas] at he
            injection he with he
            exact he.symm
          · rw [if_neg hhas] at he
            exact absurd he (by simp)
        · rw [if_neg her] at he
          exact absurd he (by simp)

/-- Absence of the two control tags from a field map. -/
def noCtrl (f : FieldMap) : Prop :=
  getValues f tyTag = none ∧ getValues f erTag = none

theorem processLine_noCtrl {n : Nat} {st st' : ParseState} {l : List Char}
    (hok : processLine n st l = .ok st')
    (hent : ∀ e ∈ st.entries, noCtrl e.fields) (hf : noCtrl st.fields) :
    (∀ e ∈ st'.entries, noCtrl e.fields) ∧ noCtrl st'.fields := by
  unfold processLine at hok
  by_cases hline : trimEndL l = []
  · rw [if_pos hline] at hok
    injection hok with hok
    subst hok
    exact ⟨hent, hf⟩
  · rw [if_neg hline] at hok
    cases hsp : splitOnce risSep (trimEndL l) with
    | none =>
      rw [hsp] at hok
      exact absurd hok (by simp)
    | some p =>
      obtain ⟨a, b⟩ := p
      rw [hsp] at hok
      simp only at hok
      by_cases hty : trimL a = tyTag
      · rw [if_pos hty] at hok
        by_cases hfe : st.fields ≠ []
        · rw [if_pos hfe] at hok
          injection hok with hok
          subst hok
          refine ⟨?_, ⟨rfl, rfl⟩⟩
          intro e he
          rcases List.mem_append.mp he with h1 | h2
          · exact hent e h1
          · rw [List.mem_singleton.mp h2]
            exact hf
        · rw [if_neg hfe] at hok
          injection hok with hok
          subst hok
          exact ⟨hent, hf⟩
      · rw [if_neg hty] at hok
        by_cases her : trimL a = erTag
        · rw [if_pos her] at hok
          by_cases hhas : st.hasTy = false
          · rw [if_pos hhas] at hok
            exact absurd hok (by simp)
          · rw [if_neg hhas] at hok
            injection hok with hok
            subst hok
            refine ⟨?_, ⟨rfl, rfl⟩⟩
            intro e he
            rcases List.mem_append.mp he with h1 | h2
            · exact hent e h1
            · rw [List.mem_singleton.mp h2]
              exact hf
        · rw [if_neg her] at hok
          injection hok with hok
          subst hok
          refine ⟨hent, ?_⟩
          constructor
          · rw [getValues_addField_ne st.fields (trimL b) (fun he => hty he.symm)]
            exact hf.1
          · rw [getValues_addField_ne st.fields (trimL b) (fun he => her he.symm)]
            exact hf.2

theorem parseLinesFrom_noCtrl (ls : List (List Char)) (st st' : ParseState)
    (n : Nat) (hok : parseLinesFrom st n ls = .ok st')
    (hent : ∀ e ∈ st.entries, noCtrl e.fields) (hf : noCtrl st.fields) :
    (∀ e ∈ st'.entries, noCtrl e.fields) ∧ noCtrl st'.fields := by
  induction ls generalizing st n with
  | nil =>
    simp only [parseLinesFrom] at hok
    injection hok with hok
    subst hok
    exact ⟨hent, hf⟩
  | cons l ls ih =>
    simp only [parseLinesFrom] at hok
    cases hpl : processLine n st l with
    | error e =>
      rw [hpl] at hok
      exact absurd hok (by simp)
    | ok st'' =>
      rw [hpl] at hok
      have := processLine_noCtrl hpl hent hf
      exact ih st'' (n + 1) hok this.1 this.2

def spTag : List Char := ['S', 'P']

def epTag : List Char := ['E', 'P']

def kwTag : List Char := ['K', 'W']

/-- The page-range separators of `RisEntry::from`, in trial order: `"--"`,
the en dash (U+2013) and the em dash (U+2014), each as head plus tail so the
split pattern is never empty. -/
def pageSeps : List (Char × List Char) :=
  [('-', ['-']), (Char.ofNat 8211, []), (Char.ofNat 8212, [])]

/-- The separator loop of the pages mapping in `RisEntry::from`: the first
separator that occurs in the string and splits it into exactly two parts
emits the trimmed non-empty parts as `SP` and `EP` and stops; if no separator
does, a non-blank trimmed pages string is emitted as `SP` alone. -/
def pagesFieldsAux (pages : List Char) :
    List (Char × List Char) → List (List Char × List Char)
  | [] => if trimL pages ≠ [] then [(spTag, trimL pages)] else []
  | (c, cs) :: seps =>
    if containsSeq pages (c :: cs) then
      match splitSeq c cs pages with
      | [p1, p2] =>
        (if trimL p1 ≠ [] then [(spTag, trimL p1)] else []) ++
          (if trimL p2 ≠ [] then [(epTag, trimL p2)] else [])
      | _ => pagesFieldsAux pages seps
    else pagesFieldsAux pages seps

/-- The `(tag, value)` pairs the pages field contributes in `RisEntry::from`. -/
def pagesFields (pages : List Char) : List (List Char × List Char) :=
  pagesFieldsAux pages pageSeps

/-- Splitting every current keyword fragment on delimiter `d`, trimming the
pieces and dropping the empty ones (`RisEntry::from`, keywords loop body). -/
def applyDelim (d : Char) (frags : List (List Char)) : List (List Char) :=
  frags.flatMap (fun kw => ((splitOnChar d kw).map trimL).filter (fun x => !x.isEmpty))

/-- One pass of the keywords loop for delimiter `d`: skipped (`continue`) when
there is a single fragment not containing `d`, otherwise applied to all
fragments. -/
def keywordsStep (d : Char) (frags : List (List Char)) : List (List Char) :=
  match frags with
  | [kw] => if containsChar kw d then applyDelim d frags else [kw]
  | _ => applyDelim d frags

/-- The keywords fragments after the loop over the delimiters `,` then `;`. -/
def keywordsList (s : List Char) : List (List Char) :=
  keywordsStep ';' (keywordsStep ',' [s])

/-- The `(tag, value)` pairs the keywords field contributes in
`RisEntry::from`: one `KW` per remaining fragment, in order. -/
def keywordsFields (s : List Char) : List (List Char × List Char) :=
  (keywordsList s).map (fun kw => (kwTag, kw))

/-- The outcome type of the import orchestrator
(`services/serialization.rs`, `ImportResult`); `ε` is the external BibTeX
parser's error type. -/
inductive ImportResult (ε : Type) where
  | bibtexImported
  | bibtexError (error : ε)
  | risImported
  | risError (error : List Char)
  | unrecognizedFormat
deriving DecidableEq

/-- Import orchestrator (`services/serialization.rs`, `import`).  The external
BibTeX parser is an out-of-scope collaborator, so its verdict on the text is a
parameter; handing entries to persistence does not affect the returned
variant and is omitted. -/
def importResult {α ε : Type} (bibParse : Except ε (List α))
    (text : List Char) : ImportResult ε :=
  match bibParse with
  | .ok bibliography =>
    if !bibliography.isEmpty then .bibtexImported
    else
      match parse_ris text with
      | .ok entries =>
        if !entries.isEmpty then .risImported else .unrecognizedFormat
      | .error e => .risError e
  | .error e => .bibtexError e

/-- Decoding fold inverse to `natToChars` (verification helper, not source). -/
def charsToNat (a : Nat) (l : List Char) : Nat :=
  l.foldl (fun acc c => acc * 10 + (c.toNat - 48)) a

theorem digit_toNat : ∀ r < 10, (Char.ofNat (48 + r)).toNat = 48 + r := by decide

theorem charsToNat_natToCharsAux (fuel : Nat) :
    ∀ n a, n ≤ fuel →
      charsToNat a (natToCharsAux fuel n) =
        a * 10 ^ (natToCharsAux fuel n).length + n := by
  induction fuel with
  | zero =>
    intro n a hn
    interval_cases n
    simp [natToCharsAux, charsToNat]
  | succ fuel ih =>
    intro n a hn
    cases n with
    | zero => simp [natToCharsAux, charsToNat]
    | succ m =>
      have hq : (m + 1) / 10 ≤ fuel := by
        have := Nat.div_lt_self (Nat.succ_pos m) (show 1 < 10 by omega)
        omega
      simp only [natToCharsAux]
      unfold charsToNat
      rw [List.foldl_append]
      have hihm := ih ((m + 1) / 10) a hq
      unfold charsToNat at hihm
      rw [hihm]
      simp only [List.foldl_cons, List.foldl_nil, List.length_append,
        List.length_cons, List.length_nil]
      have hr : (m + 1) % 10 < 10 := Nat.mod_lt _ (by omega)
      rw [digit_toNat _ hr]
      have hdm : 10 * ((m + 1) / 10) + (m + 1) % 10 = m + 1 :=
        Nat.div_add_mod (m + 1) 10
      ring_nf
      omega

theorem charsToNat_natToChars (n : Nat) : charsToNat 0 (natToChars n) = n := by
  by_cases h : n = 0
  · subst h
    decide
  · unfold natToChars
    rw [if_neg h]
    have := charsToNat_natToCharsAux n n 0 le_rfl
    omega

theorem natToChars_injective : Function.Injective natToChars := by
  intro m n h
  have hm := charsToNat_natToChars m
  rw [h, charsToNat_natToChars n] at hm
  exact hm.symm

theorem natToChars_ne_nil (n : Nat) : natToChars n ≠ [] := by
  intro h
  have := charsToNat_natToChars n
  rw [h] at this
  by_cases hn : n = 0
  · subst hn
    simp [natToChars] at h
  · exact hn (by simpa [charsToNat] using this.symm)

/-- The n-th candidate file name of the collision loop in `add_entry`:
`"{stem}.ris"` first, then `"{stem}_{n}.ris"` for n = 1, 2, 3, …, where
`stem` is `"{author}_{title}_{year}"`. -/
def candidateName (stem : List Char) (n : Nat) : List Char :=
  if n = 0 then stem ++ ".ris".data
  else stem ++ "_".data ++ natToChars n ++ ".ris".data

theorem candidateName_injective (stem : List Char) :
    Function.Injective (candidateName stem) := by
  intro m n h
  unfold candidateName at h
  by_cases hm : m = 0 <;> by_cases hn : n = 0
  · omega
  · rw [if_pos hm, if_neg hn] at h
    have hlen := congrArg List.length h
    simp only [List.length_append] at hlen
    have := List.length_pos_of_ne_nil (natToChars_ne_nil n)
    omega
  · rw [if_neg hm, if_pos hn] at h
    have hlen := congrArg List.length h
    simp only [List.length_append] at hlen
    have := List.length_pos_of_ne_nil (natToChars_ne_nil m)
    omega
  · rw [if_neg hm, if_neg hn] at h
    have h1 : stem ++ "_".data ++ natToChars m = stem ++ "_".data ++ natToChars n :=
      List.append_cancel_right h
    exact natToChars_injective (List.append_cancel_left h1)

theorem exists_free_candidate (stem : List Char) (existing : List (List Char)) :
    ∃ n, candidateName stem n ∉ existing := by
  by_contra hall
  push_neg at hall
  have hsub : (Finset.range (existing.length + 1)).image (candidateName stem) ⊆
      existing.toFinset := by
    intro x hx
    obtain ⟨n, _, rfl⟩ := Finset.mem_image.mp hx
    exact List.mem_toFinset.mpr (hall n)
  have hcard := Finset.card_le_card hsub
  rw [Finset.card_image_of_injective _ (candidateName_injective stem),
    Finset.card_range] at hcard
  have := existing.toFinset_card_le
  omega

/-- The collision loop of `add_entry`: the candidate name, retried with the
numeric suffixes 1, 2, 3, … while the current name exists, returns the first
candidate absent from the directory (`existing` is the set of file names the
loop's `file_path.exists()` consults; the loop terminates because some
candidate is always free). -/
def deriveName (stem : List Char) (existing : List (List Char)) : List Char :=
  candidateName stem (Nat.find (exists_free_candidate stem existing))

instance (b : Block) : Decidable (wfBlock b) := by
  unfold wfBlock
  infer_instance

theorem dropWhile_head_cases (p : Char → Bool) (l : List Char) :
    l.dropWhile p = [] ∨
      ∃ c cs, l.dropWhile p = c :: cs ∧ p c = false := by
  induction l with
  | nil => exact Or.inl rfl
  | cons x xs ih =>
    by_cases hx : p x = true
    · simpa [List.dropWhile, hx] using ih
    · right
      exact ⟨x, xs, by simp [List.dropWhile, hx], by simpa using hx⟩

theorem trimStartL_cons_not_ws {c : Char} (l : List Char) (hc : isWs c = false) :
    trimStartL (c :: l) = c :: l := by
  simp [trimStartL, List.dropWhile, hc]

theorem trimStartL_idem (l : List Char) :
    trimStartL (trimStartL l) = trimStartL l := by
  simp [trimStartL, List.dropWhile_idempotent]

theorem trimEndL_idem (l : List Char) : trimEndL (trimEndL l) = trimEndL l := by
  simp [trimEndL, List.dropWhile_idempotent]

theorem trimStartL_trimEndL_trimStartL (l : List Char) :
    trimStartL (trimEndL (trimStartL l)) = trimEndL (trimStartL l) := by
  rcases dropWhile_head_cases isWs l with h | ⟨c, cs, h, hc⟩
  · rw [show trimStartL l = [] from h]
    rfl
  · rw [show trimStartL l = c :: cs from h]
    unfold trimEndL
    rw [List.reverse_cons, List.dropWhile_append]
    by_cases he : (cs.reverse.dropWhile isWs).isEmpty = true
    · rw [he]
      simp only [if_true]
      rw [show List.dropWhile isWs [c] = [c] by simp [List.dropWhile, hc]]
      exact trimStartL_cons_not_ws _ hc
    · rw [show ((cs.reverse.dropWhile isWs).isEmpty) = false by simpa using he]
      simp only [if_false, Bool.false_eq_true]
      rw [List.reverse_append]
      simp only [List.reverse_cons, List.reverse_nil, List.nil_append,
        List.singleton_append]
      exact trimStartL_cons_not_ws _ hc

theorem trimL_idem (l : List Char) : trimL (trimL l) = trimL l := by
  unfold trimL
  rw [trimStartL_trimEndL_trimStartL, trimEndL_idem]

theorem mem_applyDelim {d : Char} {x : List Char} {frags : List (List Char)}
    (hx : x ∈ applyDelim d frags) : trimL x = x ∧ x ≠ [] := by
  obtain ⟨kw, _, hxin⟩ := List.mem_flatMap.mp hx
  have hmem := List.mem_filter.mp hxin
  obtain ⟨y, _, rfl⟩ := List.mem_map.mp hmem.1
  refine ⟨trimL_idem y, ?_⟩
  simpa using hmem.2

theorem keywordsStep_trimmed {d : Char} {frags : List (List Char)}
    (h : ∀ x ∈ frags, trimL x = x ∧ x ≠ []) :
    ∀ x ∈ keywordsStep d frags, trimL x = x ∧ x ≠ [] := by
  intro x hx
  cases frags with
  | nil => exact absurd hx (by simp [keywordsStep, applyDelim])
  | cons kw rest =>
    cases rest with
    | nil =>
      simp only [keywordsStep] at hx
      by_cases hc : containsChar kw d = true
      · rw [if_pos hc] at hx
        exact mem_applyDelim hx
      · rw [if_neg hc] at hx
        rw [List.mem_singleton.mp hx]
        exact h kw (by simp)
    | cons kw2 rest2 => exact mem_applyDelim hx

theorem pagesFieldsAux_skip {s : List Char} {c : Char} {cs : List Char}
    (seps : List (Char × List Char)) (h : (splitSeq c cs s).length ≠ 2) :
    pagesFieldsAux s ((c, cs) :: seps) = pagesFieldsAux s seps := by
  cases hcc : containsSeq s (c :: cs) with
  | false =>
    conv_lhs => rw [pagesFieldsAux]
    rw [if_neg (by simp [hcc])]
  | true =>
    conv_lhs => rw [pagesFieldsAux]
    rw [if_pos hcc]
    rcases hsp : splitSeq c cs s with _ | ⟨p1, _ | ⟨p2, _ | ⟨p3, rest⟩⟩⟩
    · rfl
    · rfl
    · rw [hsp] at h
      simp at h
    · rfl

theorem pagesFieldsAux_hit {s : List Char} {c : Char} {cs : List Char}
    {p1 p2 : List Char} (seps : List (Char × List Char))
    (hc : containsSeq s (c :: cs) = true) (hsp : splitSeq c cs s = [p1, p2]) :
    pagesFieldsAux s ((c, cs) :: seps) =
      (if trimL p1 ≠ [] then [(spTag, trimL p1)] else []) ++
        (if trimL p2 ≠ [] then [(epTag, trimL p2)] else []) := by
  conv_lhs => rw [pagesFieldsAux]
  rw [if_pos hc, hsp]

/-- C1 counterexample: the round-trip law fails as stated.  For the record
with type `Unknown` and empty field map, `to_string` emits the `GEN` code, so
parsing the output yields a record of type `Generic`, not the same type. -/
theorem c1_roundtrip_counterexample :
    parse_ris (RisEntry.to_string ⟨ReferenceType.Unknown, []⟩) =
      .ok [⟨ReferenceType.Generic, []⟩] ∧
    ReferenceType.Generic ≠ ReferenceType.Unknown := by
  decide

/-- C1 (amended): for every record whose type is not `Unknown` and whose
field map is well-formed (distinct tags; tags trimmed, newline-free, free of
the `"  -"` separator and distinct from `TY`/`ER`; every tag holding at least
one value; values trimmed and newline-free), parsing the output of
`to_string` yields exactly one record equal to the original: same type, same
tag-to-value-sequence content with value order preserved. -/
theorem c1_roundtrip (e : RisEntry) (hty : e.ty ≠ ReferenceType.Unknown)
    (hwf : wfFieldMap e.fields) :
    parse_ris (RisEntry.to_string e) = .ok [e] :=
  parse_ris_to_string e hty hwf

theorem c1_roundtrip_witness :
    ReferenceType.Book ≠ ReferenceType.Unknown ∧
    wfFieldMap [("AU".data, ["One".data, "Two".data]), ("TI".data, ["T".data])] ∧
    parse_ris (RisEntry.to_string
        ⟨ReferenceType.Book,
          [("AU".data, ["One".data, "Two".data]), ("TI".data, ["T".data])]⟩) =
      .ok [⟨ReferenceType.Book,
        [("AU".data, ["One".data, "Two".data]), ("TI".data, ["T".data])]⟩] :=
  ⟨by decide, by decide, c1_roundtrip _ (by decide) (by decide)⟩

/-- C2 counterexample: an entry opened with a `TY` line and never closed with
`ER` does not always produce an error: when no data line follows the `TY`
line the accumulator stays empty, so `parse_ris` succeeds with an empty
record list instead of failing. -/
theorem c2_unterminated_counterexample :
    parse_ris ("TY  - BOOK".data) = .ok [] := by
  decide

/-- C2 (amended): when an entry is opened with `TY` and at least one data
field is accumulated but no `ER` closes it before end of input, `parse_ris`
fails with exactly the message "Format error: Last entry does not have a
'TY' tag." and returns no record list; an input consisting of closed blocks
only succeeds; and that message contains the fragment the claim quotes. -/
theorem c2_unterminated :
    (∀ (bs : List Block) (c : List Char)
        (body : List (List Char × List Char)),
      (∀ b ∈ bs, wfBlock b) → wfCode c →
      (∀ p ∈ body, wfTag p.1 ∧ wfValue p.2) → body ≠ [] →
      parse_ris (joinLines
        (bs.flatMap renderBlock ++ mkLine tyTag c :: body.map dataLine)) =
        .error lastEntryMsg) ∧
    (∀ bs : List Block, (∀ b ∈ bs, wfBlock b) →
      parse_ris (joinLines (bs.flatMap renderBlock)) = .ok (bs.map blockEntry)) ∧
    containsSeq lastEntryMsg
      ("does not have a ".data ++ apos :: "TY".data ++ apos :: " tag".data) =
      true := by
  refine ⟨?_, parse_ris_renderBlocks, by decide⟩
  intro bs c body hbs hc hbody hbne
  unfold parse_ris
  have hnl : ∀ l ∈ bs.flatMap renderBlock ++
      mkLine tyTag c :: body.map dataLine, ('\n' : Char) ∉ l := by
    intro l hl
    rcases List.mem_append.mp hl with h1 | h2
    · obtain ⟨x, hx, hlx⟩ := List.mem_flatMap.mp h1
      exact renderBlock_newline_free (hbs x hx) l hlx
    · rcases List.mem_cons.mp h2 with rfl | h3
      · exact mkLine_newline_free (by decide) hc.2.2
      · obtain ⟨p, hp, rfl⟩ := List.mem_map.mp h3
        exact mkLine_newline_free (hbody p hp).1.2.2.2.1 (hbody p hp).2.2.2
  rw [splitOnChar_joinLines (by simp) hnl]
  rw [show initState = (⟨[], [], ReferenceType.Unknown, false⟩ : ParseState)
    from rfl]
  rw [parseLinesFrom_blocks bs _ [] 0 hbs]
  simp only [parseLinesFrom]
  rw [processLine_tyLine _ _ hc rfl]
  dsimp only
  rw [← List.append_nil (List.map dataLine body)]
  rw [parseLinesFrom_dataLines body [] _ _ hbody]
  simp only [parseLinesFrom]
  rw [if_pos (foldl_addField_ne_nil body [] (Or.inr hbne))]

theorem c2_unterminated_witness :
    wfCode ("BOOK".data) ∧
    parse_ris (joinLines (([] : List Block).flatMap renderBlock ++
        mkLine tyTag ("BOOK".data) ::
          List.map dataLine [("AU".data, "A".data)])) =
      .error lastEntryMsg :=
  ⟨by decide,
    c2_unterminated.1 [] ("BOOK".data) [("AU".data, "A".data)]
      (by simp) (by decide) (by decide) (by simp)⟩

/-- C3 counterexample: not every malformed line is named in the error.  With
two separator-free lines, the parse fails naming line 1 only: the message
contains neither the second bad line's number nor its text, refuting the
universally quantified claim. -/
theorem c3_invalid_line_counterexample :
    parse_ris ("BadA\nBadB".data) = .error (invalidLineMsg 0 ("BadA".data)) ∧
    containsSeq (invalidLineMsg 0 ("BadA".data)) ("BadB".data) = false ∧
    containsSeq (invalidLineMsg 0 ("BadA".data)) (natToChars 2) = false := by
  decide

/-- C3 (amended): an input containing a non-blank (after trailing trim) line
lacking the literal separator `"  -"` never parses successfully; when such a
line is the first structural error (all earlier lines process cleanly), the
parse fails with exactly "Format error: Invalid line format at line N:
'LINE'" carrying that line's 1-based number and its trimmed text; and a line
containing the separator is never the subject of an invalid-line-format
error (the only error it can raise is the `ER`-without-`TY` one). -/
theorem c3_invalid_line :
    (∀ content, (∃ l ∈ splitOnChar '\n' content,
        trimEndL l ≠ [] ∧ containsSeq (trimEndL l) risSep = false) →
      ∀ es, parse_ris content ≠ .ok es) ∧
    (∀ content pre l post st,
      splitOnChar '\n' content = pre ++ l :: post →
      parseLinesFrom initState 0 pre = .ok st →
      trimEndL l ≠ [] → containsSeq (trimEndL l) risSep = false →
      parse_ris content = .error (invalidLineMsg pre.length (trimEndL l))) ∧
    (∀ (n : Nat) (st : ParseState) (l : List Char) (e : List Char),
      containsSeq (trimEndL l) risSep = true →
      processLine n st l = .error e → e = erWithoutTyMsg n) := by
  refine ⟨?_, ?_, fun n st l e hc he => processLine_sep_error n st hc e he⟩
  · intro content h es
    unfold parse_ris
    cases hp : parseLinesFrom initState 0 (splitOnChar '\n' content) with
    | error e => simp
    | ok st => exact absurd hp (parseLinesFrom_bad _ _ _ h st)
  · intro content pre l post st hsplit hpre h1 h2
    unfold parse_ris
    rw [hsplit, parseLinesFrom_append initState 0 pre (l :: post), hpre]
    dsimp only
    simp only [parseLinesFrom]
    rw [processLine_bad (0 + pre.length) st h1 h2]
    dsimp only
    rw [Nat.zero_add]

theorem c3_invalid_line_witness :
    splitOnChar '\n' ("TY  - BOOK\nAU  - X\nBadLine\nER  -\n".data) =
      ["TY  - BOOK".data, "AU  - X".data] ++ "BadLine".data ::
        ["ER  -".data, []] ∧
    parse_ris ("TY  - BOOK\nAU  - X\nBadLine\nER  -\n".data) =
      .error (invalidLineMsg (["TY  - BOOK".data, "AU  - X".data].length)
        (trimEndL ("BadLine".data))) :=
  ⟨by decide,
    c3_invalid_line.2.1 _ ["TY  - BOOK".data, "AU  - X".data]
      ("BadLine".data) ["ER  -".data, []]
      ⟨[], [("AU".data, ["X".data])], ReferenceType.Book, true⟩
      (by decide) (by decide) (by decide) (by decide)⟩

/-- C4: for every list of well-formed `TY…ER` blocks, parsing the joined
rendering succeeds and returns exactly one record per block, in source order
(the order of the blocks' `ER` lines). -/
theorem c4_blocks (bs : List Block) (hwf : ∀ b ∈ bs, wfBlock b) :
    parse_ris (joinLines (bs.flatMap renderBlock)) = .ok (bs.map blockEntry) :=
  parse_ris_renderBlocks bs hwf

theorem c4_blocks_witness :
    (∀ b ∈ [(⟨"JOUR".data, [("AU".data, "X".data)]⟩ : Block),
        ⟨"BOOK".data, []⟩], wfBlock b) ∧
    parse_ris (joinLines
        ([(⟨"JOUR".data, [("AU".data, "X".data)]⟩ : Block),
          ⟨"BOOK".data, []⟩].flatMap renderBlock)) =
      .ok (List.map blockEntry
        [(⟨"JOUR".data, [("AU".data, "X".data)]⟩ : Block),
          ⟨"BOOK".data, []⟩]) :=
  ⟨by decide, c4_blocks _ (by decide)⟩

/-- C5: the reference-type table is total and case-sensitive: both `ADVS` and
`AGGR` decode to `AggregatedDatabase`, every string outside the code table
decodes to `Unknown`, decoding the encoding is the identity on every type but
`Unknown`, and `Unknown` encodes to `GEN` so its round trip lands on
`Generic`. -/
theorem c5_reference_type_table :
    ReferenceType.from_str ("ADVS".data) = ReferenceType.AggregatedDatabase ∧
    ReferenceType.from_str ("AGGR".data) = ReferenceType.AggregatedDatabase ∧
    (∀ s, s ∉ risCodes → ReferenceType.from_str s = ReferenceType.Unknown) ∧
    (∀ t, t ≠ ReferenceType.Unknown → ReferenceType.from_str t.to_str = t) ∧
    ReferenceType.to_str ReferenceType.Unknown = "GEN".data ∧
    ReferenceType.from_str (ReferenceType.to_str ReferenceType.Unknown) =
      ReferenceType.Generic :=
  ⟨by decide, by decide, from_str_of_not_mem_risCodes, from_str_to_str,
    by decide, by decide⟩

theorem c5_reference_type_table_witness :
    ("advs".data ∉ risCodes) ∧
    ReferenceType.from_str ("advs".data) = ReferenceType.Unknown ∧
    ReferenceType.from_str (ReferenceType.to_str ReferenceType.Book) =
      ReferenceType.Book :=
  ⟨by decide, c5_reference_type_table.2.2.1 ("advs".data) (by decide),
    c5_reference_type_table.2.2.2.1 ReferenceType.Book (by decide)⟩

/-- C6: importing the empty string returns `UnrecognizedFormat`: with the
external BibTeX parser reporting a valid-but-empty bibliography (its verdict
is the orchestrator's parameter) and `parse_ris` returning a valid-but-empty
sequence on the empty text, the orchestrator falls through both steps and
returns the `UnrecognizedFormat` variant, not an error. -/
theorem c6_import_empty :
    importResult (Except.ok ([] : List Unit)) ([] : List Char) =
      (ImportResult.unrecognizedFormat : ImportResult Unit) ∧
    parse_ris ([] : List Char) = .ok [] := by
  decide

/-- C7: the pages mapping splits on the first of the separators `"--"`, en
dash, em dash that occurs and yields exactly two parts, emitting the trimmed
non-empty parts as `SP` and `EP` (either omitted when empty); when no
separator yields two parts, a non-blank trimmed pages string becomes a single
`SP` value; `"100--110"` gives SP `100`, EP `110`, and `"45"` gives SP `45`
alone. -/
theorem c7_pages :
    (∀ s p1 p2, containsSeq s ('-' :: ['-']) = true →
      splitSeq '-' ['-'] s = [p1, p2] →
      pagesFields s =
        (if trimL p1 ≠ [] then [(spTag, trimL p1)] else []) ++
          (if trimL p2 ≠ [] then [(epTag, trimL p2)] else [])) ∧
    (∀ s p1 p2, (splitSeq '-' ['-'] s).length ≠ 2 →
      containsSeq s [Char.ofNat 8211] = true →
      splitSeq (Char.ofNat 8211) [] s = [p1, p2] →
      pagesFields s =
        (if trimL p1 ≠ [] then [(spTag, trimL p1)] else []) ++
          (if trimL p2 ≠ [] then [(epTag, trimL p2)] else [])) ∧
    (∀ s p1 p2, (splitSeq '-' ['-'] s).length ≠ 2 →
      (splitSeq (Char.ofNat 8211) [] s).length ≠ 2 →
      containsSeq s [Char.ofNat 8212] = true →
      splitSeq (Char.ofNat 8212) [] s = [p1, p2] →
      pagesFields s =
        (if trimL p1 ≠ [] then [(spTag, trimL p1)] else []) ++
          (if trimL p2 ≠ [] then [(epTag, trimL p2)] else [])) ∧
    (∀ s, (splitSeq '-' ['-'] s).length ≠ 2 →
      (splitSeq (Char.ofNat 8211) [] s).length ≠ 2 →
      (splitSeq (Char.ofNat 8212) [] s).length ≠ 2 →
      pagesFields s = if trimL s ≠ [] then [(spTag, trimL s)] else []) ∧
    pagesFields ("100--110".data) = [(spTag, "100".data), (epTag, "110".data)] ∧
    pagesFields ("45".data) = [(spTag, "45".data)] := by
  refine ⟨?_, ?_, ?_, ?_, by decide, by decide⟩
  · intro s p1 p2 hc hsp
    unfold pagesFields pageSeps
    exact pagesFieldsAux_hit _ hc hsp
  · intro s p1 p2 h1 hc hsp
    unfold pagesFields pageSeps
    rw [pagesFieldsAux_skip _ h1]
    exact pagesFieldsAux_hit _ hc hsp
  · intro s p1 p2 h1 h2 hc hsp
    unfold pagesFields pageSeps
    rw [pagesFieldsAux_skip _ h1, pagesFieldsAux_skip _ h2]
    exact pagesFieldsAux_hit _ hc hsp
  · intro s h1 h2 h3
    unfold pagesFields pageSeps
    rw [pagesFieldsAux_skip _ h1, pagesFieldsAux_skip _ h2,
      pagesFieldsAux_skip _ h3]
    rfl

theorem c7_pages_witness :
    containsSeq ("100--110".data) ('-' :: ['-']) = true ∧
    splitSeq '-' ['-'] ("100--110".data) = ["100".data, "110".data] ∧
    pagesFields ("100--110".data) =
      (if trimL ("100".data) ≠ [] then [(spTag, trimL ("100".data))] else []) ++
        (if trimL ("110".data) ≠ [] then [(epTag, trimL ("110".data))] else []) :=
  ⟨by decide, by decide, c7_pages.1 _ _ _ (by decide) (by decide)⟩

/-- C8 counterexample: the keywords mapping does not always trim fragments
and drop empty ones.  When the input contains neither `,` nor `;`, both
delimiter passes are skipped and the input is emitted verbatim: the
single-space keywords field yields one `KW` value that is the untrimmed
space, which trims to empty — the claim demands it be dropped. -/
theorem c8_keywords_counterexample :
    keywordsFields (" ".data) = [(kwTag, " ".data)] ∧ trimL (" ".data) = [] := by
  decide

/-- C8 (amended): `"a, b; c"` yields exactly the `KW` values `a`, `b`, `c`
in order; when the input contains neither `,` nor `;` it is emitted verbatim
as a single `KW` value (even untrimmed or empty); and whenever a delimiter
pass applies (the input contains `,` or `;`), every emitted `KW` value is
trimmed and non-empty. -/
theorem c8_keywords :
    keywordsFields ("a, b; c".data) =
      [(kwTag, "a".data), (kwTag, "b".data), (kwTag, "c".data)] ∧
    (∀ s, containsChar s ',' = false → containsChar s ';' = false →
      keywordsFields s = [(kwTag, s)]) ∧
    (∀ s, (containsChar s ',' = true ∨ containsChar s ';' = true) →
      ∀ p ∈ keywordsFields s, p.1 = kwTag ∧ trimL p.2 = p.2 ∧ p.2 ≠ []) := by
  refine ⟨by decide, ?_, ?_⟩
  · intro s h1 h2
    simp [keywordsFields, keywordsList, keywordsStep, h1, h2]
  · intro s h p hp
    have key : ∀ x ∈ keywordsList s, trimL x = x ∧ x ≠ [] := by
      by_cases hc : containsChar s ',' = true
      · have h1 : keywordsStep ',' [s] = applyDelim ',' [s] := by
          simp [keywordsStep, hc]
        have hin : ∀ x ∈ keywordsStep ',' [s], trimL x = x ∧ x ≠ [] := by
          rw [h1]
          intro x hx
          exact mem_applyDelim hx
        intro x hx
        exact keywordsStep_trimmed hin x hx
      · have hsem : containsChar s ';' = true := by
          rcases h with h | h
          · exact absurd h hc
          · exact h
        have h1 : keywordsStep ',' [s] = [s] := by
          simp [keywordsStep, hc]
        have h2 : keywordsList s = applyDelim ';' [s] := by
          unfold keywordsList
          rw [h1]
          simp [keywordsStep, hsem]
        rw [h2]
        intro x hx
        exact mem_applyDelim hx
    obtain ⟨kw, hkw, rfl⟩ := List.mem_map.mp hp
    exact ⟨rfl, (key kw hkw).1, (key kw hkw).2⟩

theorem c8_keywords_witness :
    containsChar ("xyz".data) ',' = false ∧
    containsChar ("xyz".data) ';' = false ∧
    keywordsFields ("xyz".data) = [(kwTag, "xyz".data)] :=
  ⟨by decide, by decide, c8_keywords.2.1 _ (by decide) (by decide)⟩

/-- C9: filename derivation returns the candidate `"{stem}.ris"` when that
name is free, otherwise the first free `"{stem}_{n}.ris"` for n = 1, 2, 3, …:
a second derivation against a directory holding the first name returns the
`_1` name, a third returns `_2`, the chosen name never equals an existing
one, and in general the returned name is the first free candidate. -/
theorem c9_filename :
    (∀ stem existing, candidateName stem 0 ∉ existing →
      deriveName stem existing = candidateName stem 0) ∧
    (∀ stem, deriveName stem [candidateName stem 0] = candidateName stem 1) ∧
    (∀ stem, deriveName stem [candidateName stem 0, candidateName stem 1] =
      candidateName stem 2) ∧
    (∀ stem existing, deriveName stem existing ∉ existing) ∧
    (∀ stem existing n, candidateName stem n ∉ existing →
      ∃ k ≤ n, deriveName stem existing = candidateName stem k ∧
        ∀ j < k, candidateName stem j ∈ existing) := by
  refine ⟨?_, ?_, ?_, ?_, ?_⟩
  · intro stem ex h
    rw [deriveName, (Nat.find_eq_zero (exists_free_candidate stem ex)).mpr h]
  · intro stem
    have hfind : Nat.find (exists_free_candidate stem [candidateName stem 0]) = 1 := by
      rw [Nat.find_eq_iff]
      constructor
      · simp only [List.mem_singleton]
        intro he
        exact absurd (candidateName_injective stem he) (by omega)
      · intro m hm
        interval_cases m
        simp
    rw [deriveName, hfind]
  · intro stem
    have hfind : Nat.find (exists_free_candidate stem
        [candidateName stem 0, candidateName stem 1]) = 2 := by
      rw [Nat.find_eq_iff]
      constructor
      · simp only [List.mem_cons, List.mem_singleton, List.not_mem_nil, not_or]
        refine ⟨?_, ?_, by simp⟩
        · intro he
          exact absurd (candidateName_injective stem he) (by omega)
        · intro he
          exact absurd (candidateName_injective stem he) (by omega)
      · intro m hm
        interval_cases m <;> simp
    rw [deriveName, hfind]
  · intro stem ex
    exact Nat.find_spec (exists_free_candidate stem ex)
  · intro stem ex n h
    exact ⟨Nat.find (exists_free_candidate stem ex),
      Nat.find_min' (exists_free_candidate stem ex) h, rfl,
      fun j hj => not_not.mp (Nat.find_min (exists_free_candidate stem ex) hj)⟩

theorem c9_filename_witness :
    candidateName ("doe_paper_2020".data) 0 ∉ ([] : List (List Char)) ∧
    deriveName ("doe_paper_2020".data) [] =
      candidateName ("doe_paper_2020".data) 0 :=
  ⟨by decide, c9_filename.1 _ [] (by decide)⟩

/-- C10: on every successful parse, no returned record's field map contains
`TY` or `ER` as a key: the two control tags only drive the state machine and
are never stored as data fields. -/
theorem c10_no_control_tags (content : List Char) (es : List RisEntry)
    (hok : parse_ris content = .ok es) :
    ∀ e ∈ es, getValues e.fields tyTag = none ∧ getValues e.fields erTag = none := by
  unfold parse_ris at hok
  cases hp : parseLinesFrom initState 0 (splitOnChar '\n' content) with
  | error e =>
    rw [hp] at hok
    exact absurd hok (by simp)
  | ok st =>
    rw [hp] at hok
    dsimp only at hok
    by_cases hf : st.fields ≠ []
    · rw [if_pos hf] at hok
      exact absurd hok (by simp)
    · rw [if_neg hf] at hok
      injection hok with hok
      subst hok
      have hinv := parseLinesFrom_noCtrl _ _ _ _ hp
        (fun e he => absurd he (List.not_mem_nil e)) ⟨rfl, rfl⟩
      intro e he
      exact hinv.1 e he

theorem c10_no_control_tags_witness :
    parse_ris ("TY  - BOOK\nAU  - A\nER  -".data) =
      .ok [⟨ReferenceType.Book, [("AU".data, ["A".data])]⟩] ∧
    (getValues [("AU".data, ["A".data])] tyTag = none ∧
      getValues [("AU".data, ["A".data])] erTag = none) :=
  ⟨by decide,
    c10_no_control_tags ("TY  - BOOK\nAU  - A\nER  -".data)
      [⟨ReferenceType.Book, [("AU".data, ["A".data])]⟩] (by decide)
      ⟨ReferenceType.Book, [("AU".data, ["A".data])]⟩ (by decide)⟩

end Refrs
